import Mathlib

/-!
# A shallow embedding of the `thread_pool` repository

Sources embedded here:

* `src/include/threadpool.hpp` : classes `Thread` and `ThreadPool`
* `src/src/main.cpp`           : the demo task `add`

The pool is shared-memory concurrent code.  It is embedded as a transition
system whose transitions are the atomic sections of the source: every
transition is either a piece of code that runs with `mtx_` held, or a piece
that touches only atomics.  A schedule is a list of such transitions; the
scheduler (the list) decides which thread moves next, so every interleaving
of the real program that respects the mutex is a schedule of the model.

Condition variables are embedded through the control state of the threads
that block on them: a worker blocked in `notEmpty_.wait` is `waiting`, and
`notEmpty_.notify_all()` turns every `waiting` worker into a `running` one.
A blocked thread may also wake up spuriously, as the C++ standard allows.

The order in which `start` iterates over the `std::unordered_map` `pool_` is
unspecified; it is a parameter (`MapOrder`) of `start`, and the general
theorems hold for every such order.
-/

namespace ThreadPoolSpec

/-! ## Data model -/

/-- Task stands for one element of `taskQue_`, a type-erased
`std::function<void()>`; the number is an opaque tag naming the closure. -/
abbrev Task := Nat

/-- Thread is the class `Thread` (threadpool.hpp 20-48).  Its `threadFunc_`
member is always `ThreadPool::threadFunc` bound to the pool, so only `id_`
is kept. -/
structure Thread where
  id_ : Nat
deriving DecidableEq

/-- Control state of one detached `std::thread` running
`ThreadPool::threadFunc`.

* `running`     : at the top of the loop, about to take `mtx_` and evaluate
                  the predicate of `notEmpty_.wait` (line 121)
* `waiting`     : blocked inside `notEmpty_.wait`
* `executing t` : between line 141 and line 143, running the claimed task
* `terminated`  : returned at line 129 -/
inductive WorkerState where
  | running
  | waiting
  | executing (t : Task)
  | terminated
deriving DecidableEq

/-- Progress of `ThreadPool::~ThreadPool` (threadpool.hpp 55-63).

* `alive`     : the destructor has not been entered
* `draining`  : lines 58-59 are done, the destructor is at `exit_.wait`
* `destroyed` : `exit_.wait` has returned and the destructor completed -/
inductive DtorState where
  | alive
  | draining
  | destroyed
deriving DecidableEq

/-- ThreadPool holds the data members of `class ThreadPool`
(threadpool.hpp 185-197) under their source names, followed by the parts of
the process state the members refer to:

* `initId_` is the static `Thread::initId_` (line 49);
* `threads` are the detached OS threads created by `Thread::start`, in
  launch order (which follows the iteration order of `pool_`), each with
  the id of the `Thread` object that launched it;
* `callers` are the `submitTask` calls that have passed the `stop_` check of
  line 75 and have not returned or thrown yet (newest first), each with the
  label of the calling thread and the task it submits;
* `dtor` is the progress of the destructor.

`int` members are `Int`; the `std::atomic_uint` is a `Nat` that is reduced
modulo `2 ^ 32` at every update; the ids are `Nat` because `initId_` starts
at 0 and is only ever incremented. -/
structure ThreadPool where
  taskQue_ : List Task
  pool_ : List (Nat × Thread)
  idleThreadNum_ : Nat
  initThreadNum_ : Int
  maxTaskQueNum_ : Int
  stop_ : Bool
  initId_ : Nat
  threads : List (Nat × WorkerState)
  callers : List (Nat × Task)
  dtor : DtorState
deriving DecidableEq

/-- Default of the first parameter of `start` (threadpool.hpp 15). -/
def DEFAULT_INIT_THREAD_NUM : Int := 4

/-- Default of the second parameter of `start` (threadpool.hpp 16). -/
def MAX_TASK_QUEUE_NUM : Int := 100

/-- The private constructor `ThreadPool::ThreadPool()` (threadpool.hpp
172-177) in a process where no `Thread` has been constructed yet. -/
def ThreadPool.new : ThreadPool :=
  { taskQue_ := []
    pool_ := []
    idleThreadNum_ := 0
    initThreadNum_ := 0
    maxTaskQueNum_ := 0
    stop_ := false
    initId_ := 0
    threads := []
    callers := []
    dtor := DtorState.alive }

/-! ## `Thread` and `ThreadPool::start` -/

/-- The constructor `Thread::Thread(ThreadFunc)` (threadpool.hpp 25-28):
`id_(initId_++)`. -/
def Thread.create (s : ThreadPool) : Thread × ThreadPool :=
  ({ id_ := s.initId_ }, { s with initId_ := s.initId_ + 1 })

/-- The call `Thread::getId` (threadpool.hpp 31-34). -/
def Thread.getId (t : Thread) : Nat := t.id_

/-- The call `std::unordered_map::emplace`: the pair is inserted unless the
key is already present.  The map is kept as a list of its entries; the
position of an entry in the list carries no meaning, and the loop that
iterates over the map does so through a `MapOrder`. -/
def emplace (m : List (Nat × Thread)) (k : Nat) (v : Thread) : List (Nat × Thread) :=
  if m.any (fun e => e.1 == k) then m else m ++ [(k, v)]

/-- The first loop of `start` (threadpool.hpp 152-157), with the number of
iterations left as its first argument. -/
def createThreads : Nat → ThreadPool → ThreadPool
  | 0, s => s
  | i + 1, s =>
    let th := (Thread.create s).1
    let s1 := (Thread.create s).2
    createThreads i { s1 with pool_ := emplace s1.pool_ th.getId th }

/-- The order in which a range-for visits the entries of a
`std::unordered_map`.  The C++ standard leaves it unspecified (libstdc++
visits the newest entry first), so it is a parameter of the model: the
function maps the entries of the map to the sequence in which the loop
visits them. -/
abbrev MapOrder := List (Nat × Thread) → List (Nat × Thread)

/-- The second loop of `start` (threadpool.hpp 159-163) over the entries of
`pool_` still to visit, in the order the map hands them out: `Thread::start`
(lines 37-42) creates and detaches a `std::thread`, then
`idleThreadNum_++`. -/
def launchThreads : List (Nat × Thread) → ThreadPool → ThreadPool
  | [], s => s
  | e :: rest, s =>
    launchThreads rest
      { s with
        threads := s.threads ++ [(e.2.id_, WorkerState.running)]
        idleThreadNum_ := (s.idleThreadNum_ + 1) % 2 ^ 32 }

/-- The two assignments that open `start` (threadpool.hpp 149-150). -/
def configure (s : ThreadPool) (initThreadNum maxTaskQueNum : Int) : ThreadPool :=
  { s with initThreadNum_ := initThreadNum, maxTaskQueNum_ := maxTaskQueNum }

/-- The method `ThreadPool::start` (threadpool.hpp 147-164); `order` is the
iteration order of `pool_` in the loop of lines 159-163. -/
def start (order : MapOrder) (s : ThreadPool) (initThreadNum maxTaskQueNum : Int) :
    ThreadPool :=
  let s1 := configure s initThreadNum maxTaskQueNum
  let s2 := createThreads s1.initThreadNum_.toNat s1
  launchThreads (order s2.pool_) s2

/-! ## The atomic sections of `submitTask`, `threadFunc`, `stop` and the destructor -/

/-- What a transition makes observable to the threads. -/
inductive Event where
  | poolStopped (c : Nat)
  | queueFull (c : Nat)
  | accepted (c : Nat) (t : Task)
  | claimed (w : Nat) (t : Task)
  | finished (w : Nat) (t : Task)
  | exited (w : Nat)
  | dtorDone
deriving DecidableEq

/-- The atomic sections.  `c` labels a calling thread, `w` is a position in
`threads`.

* `submitCall c t`  : entry of `submitTask` and the `stop_` check, 73-78
* `submitWake c`    : one evaluation of the `wait_for` predicate with the
                      lock held, before the timeout; when it holds, the rest
                      of the critical section 97-107 runs
* `submitTimeout c` : the timeout of `wait_for` expires; the predicate is
                      evaluated one last time, 87-95, and then 97-107
* `workerStep w`    : the critical section of `threadFunc`, 119-141
* `workerWake w`    : a spurious wake-up of a worker blocked at 121
* `workerFinish w`  : `task(); idleThreadNum_++`, 142-143
* `stop`            : `ThreadPool::stop`, 166-169
* `dtorStop`        : the destructor, 58-59
* `dtorWait`        : the destructor, 60-62 -/
inductive Action where
  | submitCall (c : Nat) (t : Task)
  | submitWake (c : Nat)
  | submitTimeout (c : Nat)
  | workerStep (w : Nat)
  | workerWake (w : Nat)
  | workerFinish (w : Nat)
  | stop
  | dtorStop
  | dtorWait
deriving DecidableEq

/-- Conversion of an `int` to `std::size_t` (64 bits), as the comparison
`taskQue_.size() < maxTaskQueNum_` of line 90 performs it. -/
def sizeT (x : Int) : Nat := (x % 2 ^ 64).toNat

/-- The predicate of `notFull_.wait_for` (threadpool.hpp 90). -/
def notFullPred (s : ThreadPool) : Bool :=
  decide (s.taskQue_.length < sizeT s.maxTaskQueNum_)

/-- The predicate of `notEmpty_.wait` (threadpool.hpp 121). -/
def notEmptyPred (s : ThreadPool) : Bool :=
  !s.taskQue_.isEmpty || s.stop_

/-- The predicate of `exit_.wait` in the destructor (threadpool.hpp 61). -/
def exitPred (s : ThreadPool) : Bool :=
  s.taskQue_.isEmpty

/-- The call `notEmpty_.notify_all()`: every worker blocked in
`notEmpty_.wait` becomes runnable and will evaluate the predicate again. -/
def wakeAll (ws : List (Nat × WorkerState)) : List (Nat × WorkerState) :=
  ws.map fun e => if e.2 = WorkerState.waiting then (e.1, WorkerState.running) else e

/-- The task of the newest call of `c` that is inside `submitTask`. -/
def findCaller (c : Nat) : List (Nat × Task) → Option Task
  | [] => none
  | e :: rest => if e.1 = c then some e.2 else findCaller c rest

/-- The calls inside `submitTask` once the newest call of `c` has left. -/
def dropCaller (c : Nat) : List (Nat × Task) → List (Nat × Task)
  | [] => []
  | e :: rest => if e.1 = c then rest else e :: dropCaller c rest

/-- Lines 97-107 of `submitTask`: the task is packaged, appended to the
queue, `notEmpty_.notify_all()` is called and the future is returned. -/
def enqueue (s : ThreadPool) (c : Nat) (t : Task) : ThreadPool × List Event :=
  ({ s with
     taskQue_ := s.taskQue_ ++ [t]
     threads := wakeAll s.threads
     callers := dropCaller c s.callers },
   [Event.accepted c t])

/-- Lines 73-78 of `submitTask`: throw when `stop_` is set, otherwise go on
to take the lock. -/
def submitCall (s : ThreadPool) (c : Nat) (t : Task) : ThreadPool × List Event :=
  if s.stop_ then (s, [Event.poolStopped c])
  else ({ s with callers := (c, t) :: s.callers }, [])

/-- One evaluation of the `wait_for` predicate by a call of `c` that holds
the lock and whose timeout has not expired: when the predicate holds the
call goes on to lines 97-107, otherwise it blocks again. -/
def submitWake (s : ThreadPool) (c : Nat) : ThreadPool × List Event :=
  match findCaller c s.callers with
  | none => (s, [])
  | some t => if notFullPred s then enqueue s c t else (s, [])

/-- The timeout of `wait_for` expires for a call of `c`: `wait_for` returns
the value of the predicate, and `submitTask` throws "Task queue is full."
when it is false (lines 87-95). -/
def submitTimeout (s : ThreadPool) (c : Nat) : ThreadPool × List Event :=
  match findCaller c s.callers with
  | none => (s, [])
  | some t =>
    if notFullPred s then enqueue s c t
    else ({ s with callers := dropCaller c s.callers }, [Event.queueFull c])

/-- The critical section of `threadFunc` (threadpool.hpp 119-141) run by
the worker at position `w`.  A worker that is not `running` holds no lock
and does nothing here.  The branch `[]` of the claim is `front()` on an
empty queue; the two tests before it exclude it. -/
def workerStep (s : ThreadPool) (w : Nat) : ThreadPool × List Event :=
  match s.threads[w]? with
  | some (tid, WorkerState.running) =>
    if !notEmptyPred s then
      ({ s with threads := s.threads.set w (tid, WorkerState.waiting) }, [])
    else if s.stop_ && s.taskQue_.isEmpty then
      ({ s with threads := s.threads.set w (tid, WorkerState.terminated) }, [Event.exited w])
    else
      match s.taskQue_ with
      | [] => (s, [])
      | t :: rest =>
        let ths := s.threads.set w (tid, WorkerState.executing t)
        ({ s with
           taskQue_ := rest
           idleThreadNum_ := (s.idleThreadNum_ + 2 ^ 32 - 1) % 2 ^ 32
           threads := if !rest.isEmpty then wakeAll ths else ths },
         [Event.claimed w t])
  | _ => (s, [])

/-- A spurious wake-up of the worker at position `w`. -/
def workerWake (s : ThreadPool) (w : Nat) : ThreadPool × List Event :=
  match s.threads[w]? with
  | some (tid, WorkerState.waiting) =>
    ({ s with threads := s.threads.set w (tid, WorkerState.running) }, [])
  | _ => (s, [])

/-- Lines 142-143 of `threadFunc`: the claimed task runs outside the lock,
then `idleThreadNum_++` and the loop starts over. -/
def workerFinish (s : ThreadPool) (w : Nat) : ThreadPool × List Event :=
  match s.threads[w]? with
  | some (tid, WorkerState.executing t) =>
    ({ s with
       idleThreadNum_ := (s.idleThreadNum_ + 1) % 2 ^ 32
       threads := s.threads.set w (tid, WorkerState.running) },
     [Event.finished w t])
  | _ => (s, [])

/-- The method `ThreadPool::stop` (threadpool.hpp 166-169): `stop_ = true;`
and nothing else. -/
def stop (s : ThreadPool) : ThreadPool :=
  { s with stop_ := true }

/-- Lines 58-59 of the destructor: `stop_ = true; notEmpty_.notify_all();`. -/
def dtorStop (s : ThreadPool) : ThreadPool :=
  { s with stop_ := true, threads := wakeAll s.threads, dtor := DtorState.draining }

/-- Lines 60-62 of the destructor: `exit_.wait` returns as soon as its
predicate holds with the lock held, and the destructor completes. -/
def dtorWait (s : ThreadPool) : ThreadPool × List Event :=
  if s.dtor = DtorState.draining ∧ exitPred s = true then
    ({ s with dtor := DtorState.destroyed }, [Event.dtorDone])
  else (s, [])

/-- One transition of the pool. -/
def step (s : ThreadPool) : Action → ThreadPool × List Event
  | Action.submitCall c t => submitCall s c t
  | Action.submitWake c => submitWake s c
  | Action.submitTimeout c => submitTimeout s c
  | Action.workerStep w => workerStep s w
  | Action.workerWake w => workerWake s w
  | Action.workerFinish w => workerFinish s w
  | Action.stop => (stop s, [])
  | Action.dtorStop => if s.dtor = DtorState.alive then (dtorStop s, []) else (s, [])
  | Action.dtorWait => dtorWait s

/-- A schedule run from `s`: the final state and the events in order. -/
def run (s : ThreadPool) : List Action → ThreadPool × List Event
  | [] => (s, [])
  | a :: rest => ((run (step s a).1 rest).1, (step s a).2 ++ (run (step s a).1 rest).2)

/-- The tasks accepted by `submitTask`, in the order of acceptance. -/
def acceptedTasks : List Event → List Task
  | [] => []
  | Event.accepted _ t :: rest => t :: acceptedTasks rest
  | _ :: rest => acceptedTasks rest

/-- The tasks claimed by the workers (all of them together), in the order
of the claims. -/
def claimedTasks : List Event → List Task
  | [] => []
  | Event.claimed _ t :: rest => t :: claimedTasks rest
  | _ :: rest => claimedTasks rest

/-- A complete call of `submitTask` by `c` that no other thread interleaves
with: the `stop_` check, `k` evaluations of the predicate before the
timeout, and the evaluation at the timeout. -/
def submitTaskAlone (c : Nat) (t : Task) (k : Nat) : List Action :=
  Action.submitCall c t :: (List.replicate k (Action.submitWake c) ++ [Action.submitTimeout c])

/-- The state of the pool while a call of `c` submitting `t` is between the
`stop_` check and its first evaluation of the `wait_for` predicate. -/
def inCall (s : ThreadPool) (c : Nat) (t : Task) : ThreadPool :=
  { s with callers := (c, t) :: s.callers }

/-- The registry after `n` workers were created on a fresh pool: key `i`
maps to the `Thread` whose id is `i`, for `i = 0, ..., n-1`, in order of
construction. -/
def registryUpTo (n : Nat) : List (Nat × Thread) :=
  (List.range n).map fun i => (i, { id_ := i })

/-! ## The demo task of `main.cpp` -/

/-- The loop of `add` (main.cpp 10-13) with loop variable `i` and
accumulator `sum`, both `unsigned long long`, hence reduced modulo `2 ^ 64`.
The first argument bounds the number of loop tests; `none` means that the
loop is still running when the bound is used up. -/
def addLoop (b : Nat) : Nat → Nat → Nat → Option Nat
  | 0, _, _ => none
  | fuel + 1, i, sum =>
    if i ≤ b then addLoop b fuel ((i + 1) % 2 ^ 64) ((sum + i) % 2 ^ 64) else some sum

/-- The function `add` (main.cpp 7-15). -/
def add (fuel a b : Nat) : Option Nat := addLoop b fuel a 0

/-- The arguments of the five tasks submitted by `main` (main.cpp 24-28). -/
def mainRanges : List (Nat × Nat) :=
  [(1, 10000000000), (10000000001, 20000000000), (20000000001, 30000000000),
   (30000000001, 40000000000), (40000000001, 50000000000)]

/-- The consecutive ranges `[lo+1, k1], [k1+1, k2], ...` cut out by the
upper ends `k1, k2, ...`. -/
def ranges (lo : Nat) : List Nat → List (Nat × Nat)
  | [] => []
  | k :: ks => (lo + 1, k) :: ranges k ks

/-- The upper end of the last range cut out by the upper ends, `lo` when
there is none. -/
def lastCut (lo : Nat) : List Nat → Nat
  | [] => lo
  | k :: ks => lastCut k ks

/-- The upper ends do not decrease, starting from `lo`: the ranges are
consecutive and none runs backwards. -/
def cutsOk (lo : Nat) : List Nat → Bool
  | [] => true
  | k :: ks => decide (lo ≤ k) && cutsOk k ks

/-- The results of `add` on a list of ranges, when every call returns
within the bound. -/
def addAll (fuel : Nat) : List (Nat × Nat) → Option (List Nat)
  | [] => some []
  | r :: rs =>
    match add fuel r.1 r.2, addAll fuel rs with
    | some v, some vs => some (v :: vs)
    | _, _ => none

/-- Results added up in `unsigned long long` arithmetic, as `main` adds the
values of the futures (main.cpp 29). -/
def sumResults : List Nat → Nat
  | [] => 0
  | v :: vs => (v + sumResults vs) % 2 ^ 64


/-! ## Basic facts about the transitions -/

theorem sizeT_le_toNat (x : Int) (hx : 0 ≤ x) : sizeT x ≤ x.toNat := by
  unfold sizeT
  omega

theorem sizeT_eq_toNat (x : Int) (h0 : 0 ≤ x) (h1 : x < 2 ^ 64) : sizeT x = x.toNat := by
  unfold sizeT
  omega

/-- Every transition keeps `queue ++ accepted = claimed ++ queue'`. -/
theorem step_queue (s : ThreadPool) (a : Action) :
    s.taskQue_ ++ acceptedTasks (step s a).2 = claimedTasks (step s a).2 ++ (step s a).1.taskQue_ := by
  cases a <;> simp only [step, submitCall, submitWake, submitTimeout, workerStep, workerWake,
    workerFinish, stop, dtorStop, dtorWait, enqueue]
  all_goals repeat' split
  all_goals first | rfl | simp_all [acceptedTasks, claimedTasks]

/-- The capacity is changed by no transition. -/
theorem step_cap (s : ThreadPool) (a : Action) :
    (step s a).1.maxTaskQueNum_ = s.maxTaskQueNum_ := by
  cases a <;> simp only [step, submitCall, submitWake, submitTimeout, workerStep, workerWake,
    workerFinish, stop, dtorStop, dtorWait, enqueue]
  all_goals repeat' split
  all_goals rfl

/-- A transition that accepts a task found the `wait_for` predicate true
and appended the task at the tail of the queue. -/
theorem step_accepted (s : ThreadPool) (a : Action) (c : Nat) (t : Task)
    (h : Event.accepted c t ∈ (step s a).2) :
    s.taskQue_.length < sizeT s.maxTaskQueNum_ ∧ (step s a).1.taskQue_ = s.taskQue_ ++ [t] := by
  revert h
  cases a <;> simp only [step, submitCall, submitWake, submitTimeout, workerStep, workerWake,
    workerFinish, stop, dtorStop, dtorWait, enqueue]
  all_goals repeat' split
  all_goals simp_all [notFullPred]

/-- A transition that claims a task removed it from the head of the queue. -/
theorem step_claimed (s : ThreadPool) (a : Action) (w : Nat) (t : Task)
    (h : Event.claimed w t ∈ (step s a).2) :
    s.taskQue_ = t :: (step s a).1.taskQue_ := by
  revert h
  cases a <;> simp only [step, submitCall, submitWake, submitTimeout, workerStep, workerWake,
    workerFinish, stop, dtorStop, dtorWait, enqueue]
  all_goals repeat' split
  all_goals simp_all

/-- A transition either does not lengthen the queue, or found it below the
capacity and lengthened it by one. -/
theorem step_length (s : ThreadPool) (a : Action) :
    (step s a).1.taskQue_.length ≤ s.taskQue_.length ∨
      (s.taskQue_.length < sizeT s.maxTaskQueNum_ ∧
        (step s a).1.taskQue_.length = s.taskQue_.length + 1) := by
  cases a <;> simp only [step, submitCall, submitWake, submitTimeout, workerStep, workerWake,
    workerFinish, stop, dtorStop, dtorWait, enqueue]
  all_goals repeat' split
  all_goals simp_all [notFullPred]

theorem acceptedTasks_append (xs ys : List Event) :
    acceptedTasks (xs ++ ys) = acceptedTasks xs ++ acceptedTasks ys := by
  induction xs with
  | nil => rfl
  | cons e rest ih => cases e <;> simp [acceptedTasks, ih]

theorem claimedTasks_append (xs ys : List Event) :
    claimedTasks (xs ++ ys) = claimedTasks xs ++ claimedTasks ys := by
  induction xs with
  | nil => rfl
  | cons e rest ih => cases e <;> simp [claimedTasks, ih]

/-- Along every schedule `queue ++ accepted = claimed ++ queue'`. -/
theorem run_queue (acts : List Action) : ∀ s : ThreadPool,
    s.taskQue_ ++ acceptedTasks (run s acts).2
      = claimedTasks (run s acts).2 ++ (run s acts).1.taskQue_ := by
  induction acts with
  | nil => intro s; simp [run, acceptedTasks, claimedTasks]
  | cons a rest ih =>
    intro s
    simp only [run, acceptedTasks_append, claimedTasks_append]
    rw [← List.append_assoc, step_queue, List.append_assoc, ih, List.append_assoc]

theorem run_cap (acts : List Action) : ∀ s : ThreadPool,
    (run s acts).1.maxTaskQueNum_ = s.maxTaskQueNum_ := by
  induction acts with
  | nil => intro s; rfl
  | cons a rest ih => intro s; simp only [run]; rw [ih, step_cap]

/-- The bound `length ≤ capacity` is kept along every schedule. -/
theorem run_length (acts : List Action) : ∀ s : ThreadPool, 0 ≤ s.maxTaskQueNum_ →
    s.taskQue_.length ≤ s.maxTaskQueNum_.toNat →
    (run s acts).1.taskQue_.length ≤ s.maxTaskQueNum_.toNat := by
  induction acts with
  | nil => intro s _ h; exact h
  | cons a rest ih =>
    intro s h0 h
    simp only [run]
    have hc := step_cap s a
    have hl := step_length s a
    have hs := sizeT_le_toNat s.maxTaskQueNum_ h0
    have := ih (step s a).1 (by rw [hc]; exact h0) (by rw [hc]; omega)
    rw [hc] at this
    exact this

theorem createThreads_fields (k : Nat) : ∀ s : ThreadPool,
    (createThreads k s).taskQue_ = s.taskQue_ ∧
      (createThreads k s).maxTaskQueNum_ = s.maxTaskQueNum_ ∧
      (createThreads k s).stop_ = s.stop_ ∧
      (createThreads k s).idleThreadNum_ = s.idleThreadNum_ ∧
      (createThreads k s).threads = s.threads ∧
      (createThreads k s).callers = s.callers ∧
      (createThreads k s).dtor = s.dtor ∧
      (createThreads k s).initThreadNum_ = s.initThreadNum_ := by
  induction k with
  | zero => intro s; simp [createThreads]
  | succ k ih => intro s; simp only [createThreads, Thread.create]; exact ih _

theorem launchThreads_fields (es : List (Nat × Thread)) : ∀ s : ThreadPool,
    (launchThreads es s).taskQue_ = s.taskQue_ ∧
      (launchThreads es s).maxTaskQueNum_ = s.maxTaskQueNum_ ∧
      (launchThreads es s).stop_ = s.stop_ ∧
      (launchThreads es s).pool_ = s.pool_ ∧
      (launchThreads es s).initId_ = s.initId_ ∧
      (launchThreads es s).callers = s.callers ∧
      (launchThreads es s).dtor = s.dtor ∧
      (launchThreads es s).initThreadNum_ = s.initThreadNum_ := by
  induction es with
  | nil => intro s; simp [launchThreads]
  | cons e rest ih => intro s; simp only [launchThreads]; exact ih _

theorem start_taskQue (order : MapOrder) (s : ThreadPool) (n C : Int) :
    (start order s n C).taskQue_ = s.taskQue_ := by
  simp only [start]
  rw [(launchThreads_fields _ _).1, (createThreads_fields _ _).1]
  rfl

theorem start_cap (order : MapOrder) (s : ThreadPool) (n C : Int) :
    (start order s n C).maxTaskQueNum_ = C := by
  simp only [start]
  rw [(launchThreads_fields _ _).2.1, (createThreads_fields _ _).2.1]
  rfl

/-- Once set, `stop_` stays set: no transition clears it. -/
theorem step_stop (s : ThreadPool) (a : Action) (h : s.stop_ = true) :
    (step s a).1.stop_ = true := by
  cases a <;> simp only [step, submitCall, submitWake, submitTimeout, workerStep, workerWake,
    workerFinish, stop, dtorStop, dtorWait, enqueue]
  all_goals repeat' split
  all_goals first | rfl | exact h

theorem run_stop (acts : List Action) : ∀ s : ThreadPool, s.stop_ = true →
    (run s acts).1.stop_ = true := by
  induction acts with
  | nil => intro s h; exact h
  | cons a rest ih => intro s h; simp only [run]; exact ih _ (step_stop s a h)

theorem findCaller_inCall (s : ThreadPool) (c : Nat) (t : Task) :
    findCaller c (inCall s c t).callers = some t := by
  simp [inCall, findCaller]

theorem dropCaller_inCall (s : ThreadPool) (c : Nat) (t : Task) :
    dropCaller c (inCall s c t).callers = s.callers := by
  simp [inCall, dropCaller]

/-- An evaluation of the `wait_for` predicate before the timeout, in a
state where it is false: the call blocks again. -/
theorem submitWake_full (s : ThreadPool) (c : Nat) (t : Task)
    (hc : findCaller c s.callers = some t) (hf : notFullPred s = false) :
    step s (Action.submitWake c) = (s, []) := by
  simp [step, submitWake, hc, hf]

/-- The evaluation of the `wait_for` predicate at the timeout, in a state
where it is false: the call throws and leaves. -/
theorem submitTimeout_full (s : ThreadPool) (c : Nat) (t : Task)
    (hc : findCaller c s.callers = some t) (hf : notFullPred s = false) :
    step s (Action.submitTimeout c)
      = ({ s with callers := dropCaller c s.callers }, [Event.queueFull c]) := by
  simp [step, submitTimeout, hc, hf]

/-- An evaluation of the `wait_for` predicate, before or at the timeout, in
a state where it is true: lines 97-107 run. -/
theorem submit_notFull (s : ThreadPool) (c : Nat) (t : Task)
    (hc : findCaller c s.callers = some t) (hf : notFullPred s = true) :
    step s (Action.submitWake c) = enqueue s c t ∧
      step s (Action.submitTimeout c) = enqueue s c t := by
  simp [step, submitWake, submitTimeout, hc, hf]

theorem run_wakes_full (s : ThreadPool) (c : Nat) (t : Task) (hfull : notFullPred s = false)
    (k : Nat) (rest : List Action) :
    run (inCall s c t) (List.replicate k (Action.submitWake c) ++ rest)
      = run (inCall s c t) rest := by
  induction k with
  | zero => rfl
  | succ k ih =>
    have hw := submitWake_full (inCall s c t) c t (findCaller_inCall s c t) hfull
    simp only [List.replicate_succ, List.cons_append, run, hw, List.nil_append]
    exact ih

/-- A complete, uninterrupted call of `submitTask` on a pool that is not
stopped and whose queue fails the `wait_for` predicate throws "Task queue
is full." and leaves the whole state as it was. -/
theorem run_alone_full (s : ThreadPool) (c : Nat) (t : Task) (k : Nat)
    (hrun : s.stop_ = false) (hfull : notFullPred s = false) :
    run s (submitTaskAlone c t k) = (s, [Event.queueFull c]) := by
  have hc : step s (Action.submitCall c t) = (inCall s c t, []) := by
    simp [step, submitCall, hrun, inCall]
  have ht : step (inCall s c t) (Action.submitTimeout c) = (s, [Event.queueFull c]) := by
    rw [submitTimeout_full (inCall s c t) c t (findCaller_inCall s c t) hfull,
      dropCaller_inCall]
    rfl
  simp only [submitTaskAlone, run, hc, List.nil_append]
  rw [run_wakes_full s c t hfull k]
  simp [run, ht]

/-- A pool of capacity 0 accepts nothing. -/
theorem step_no_accept (s : ThreadPool) (a : Action) (h : sizeT s.maxTaskQueNum_ = 0) :
    acceptedTasks (step s a).2 = [] := by
  cases a <;> simp only [step, submitCall, submitWake, submitTimeout, workerStep, workerWake,
    workerFinish, stop, dtorStop, dtorWait, enqueue]
  all_goals repeat' split
  all_goals simp_all [notFullPred, acceptedTasks]

theorem run_no_accept (acts : List Action) : ∀ s : ThreadPool, sizeT s.maxTaskQueNum_ = 0 →
    acceptedTasks (run s acts).2 = [] := by
  induction acts with
  | nil => intro s _; rfl
  | cons a rest ih =>
    intro s h
    simp only [run, acceptedTasks_append]
    rw [step_no_accept s a h, ih _ (by rw [step_cap]; exact h)]
    rfl

theorem registryUpTo_succ (j : Nat) :
    registryUpTo (j + 1) = registryUpTo j ++ [(j, { id_ := j })] := by
  simp [registryUpTo, List.range_succ]

theorem emplace_registryUpTo (j : Nat) :
    emplace (registryUpTo j) j { id_ := j } = registryUpTo (j + 1) := by
  have h : (registryUpTo j).any (fun e => e.1 == j) = false := by
    rw [List.any_eq_false]
    intro e he
    simp only [registryUpTo, List.mem_map, List.mem_range] at he
    obtain ⟨i, hi, rfl⟩ := he
    simp
    omega
  simp [emplace, h, registryUpTo_succ]

theorem createThreads_pool (k : Nat) : ∀ (s : ThreadPool) (j : Nat), s.initId_ = j →
    s.pool_ = registryUpTo j →
    (createThreads k s).pool_ = registryUpTo (j + k) ∧ (createThreads k s).initId_ = j + k := by
  induction k with
  | zero => intro s j h1 h2; exact ⟨h2, h1⟩
  | succ k ih =>
    intro s j h1 h2
    simp only [createThreads, Thread.create, Thread.getId]
    have := ih { s with initId_ := s.initId_ + 1, pool_ := emplace s.pool_ s.initId_ { id_ := s.initId_ } }
      (j + 1) (by simp [h1]) (by simp only [h1, h2]; exact emplace_registryUpTo j)
    rw [this.1, this.2]
    exact ⟨by congr 1; omega, by omega⟩

theorem launchThreads_threads (es : List (Nat × Thread)) : ∀ s : ThreadPool,
    (launchThreads es s).threads
        = s.threads ++ es.map (fun e => (e.2.id_, WorkerState.running)) ∧
      (launchThreads es s).idleThreadNum_ % 2 ^ 32
        = (s.idleThreadNum_ + es.length) % 2 ^ 32 ∧
      (s.idleThreadNum_ < 2 ^ 32 → (launchThreads es s).idleThreadNum_ < 2 ^ 32) := by
  induction es with
  | nil => intro s; simp [launchThreads]
  | cons e rest ih =>
    intro s
    simp only [launchThreads]
    obtain ⟨h1, h2, h3⟩ := ih
      { s with
        threads := s.threads ++ [(e.2.id_, WorkerState.running)]
        idleThreadNum_ := (s.idleThreadNum_ + 1) % 2 ^ 32 }
    refine ⟨by rw [h1]; simp, ?_, fun _ => h3 (Nat.mod_lt _ (by norm_num))⟩
    rw [h2]
    simp only [List.length_cons]
    omega

/-- A worker leaves its loop only from a state where `stop_` is set and
the queue is empty. -/
theorem step_exited (s : ThreadPool) (a : Action) (w : Nat)
    (h : Event.exited w ∈ (step s a).2) :
    s.stop_ = true ∧ s.taskQue_ = [] ∧ (step s a).1.taskQue_ = [] := by
  revert h
  cases a <;> simp only [step, submitCall, submitWake, submitTimeout, workerStep, workerWake,
    workerFinish, stop, dtorStop, dtorWait, enqueue]
  all_goals repeat' split
  all_goals simp_all

/-- A runnable worker that finds the queue non-empty claims its head,
whether the pool is stopping or not. -/
theorem workerStep_claims (s : ThreadPool) (w tid : Nat) (t : Task) (rest : List Task)
    (hw : s.threads[w]? = some (tid, WorkerState.running)) (hq : s.taskQue_ = t :: rest) :
    (step s (Action.workerStep w)).2 = [Event.claimed w t] ∧
      (step s (Action.workerStep w)).1.taskQue_ = rest := by
  simp [step, workerStep, hw, hq, notEmptyPred]

/-- The wait of the destructor returns only on an empty queue. -/
theorem step_dtorDone (s : ThreadPool) (a : Action)
    (h : Event.dtorDone ∈ (step s a).2) :
    s.taskQue_ = [] ∧ s.stop_ = (step s a).1.stop_ ∧ (step s a).1.threads = s.threads := by
  revert h
  cases a <;> simp only [step, submitCall, submitWake, submitTimeout, workerStep, workerWake,
    workerFinish, stop, dtorStop, dtorWait, enqueue]
  all_goals repeat' split
  all_goals simp_all [exitPred]

theorem wakeAll_terminated (ws : List (Nat × WorkerState))
    (h : ∀ e ∈ ws, e.2 = WorkerState.terminated) : wakeAll ws = ws := by
  induction ws with
  | nil => rfl
  | cons e rest ih =>
    have he := h e (List.mem_cons_self _ _)
    have hr := ih (fun x hx => h x (List.mem_cons_of_mem _ hx))
    simp only [wakeAll, List.map_cons] at hr ⊢
    rw [hr]
    simp [he]

/-- Once every worker has terminated the workers never move again: no
transition changes them and no transition claims a task. -/
theorem step_allTerminated (s : ThreadPool) (a : Action)
    (h : ∀ e ∈ s.threads, e.2 = WorkerState.terminated) :
    (step s a).1.threads = s.threads ∧ claimedTasks (step s a).2 = [] := by
  have hw := wakeAll_terminated s.threads h
  have hno : ∀ (w tid : Nat) (st : WorkerState), s.threads[w]? = some (tid, st) →
      st = WorkerState.terminated := fun w tid st e => h _ (List.getElem?_mem e)
  cases a with
  | workerStep w =>
    simp only [step, workerStep]
    split
    · rename_i tid heq
      exact absurd (hno w tid _ heq) (by simp)
    · exact ⟨rfl, rfl⟩
  | workerWake w =>
    simp only [step, workerWake]
    split
    · rename_i tid heq
      exact absurd (hno w tid _ heq) (by simp)
    · exact ⟨rfl, rfl⟩
  | workerFinish w =>
    simp only [step, workerFinish]
    split
    · rename_i tid t heq
      exact absurd (hno w tid _ heq) (by simp)
    · exact ⟨rfl, rfl⟩
  | submitCall c t =>
    simp only [step, submitCall]
    split <;> exact ⟨rfl, rfl⟩
  | submitWake c =>
    simp only [step, submitWake, enqueue]
    repeat' split
    all_goals first | exact ⟨rfl, rfl⟩ | exact ⟨hw, rfl⟩
  | submitTimeout c =>
    simp only [step, submitTimeout, enqueue]
    repeat' split
    all_goals first | exact ⟨rfl, rfl⟩ | exact ⟨hw, rfl⟩
  | stop => exact ⟨rfl, rfl⟩
  | dtorStop =>
    simp only [step, dtorStop]
    split
    · exact ⟨hw, rfl⟩
    · exact ⟨rfl, rfl⟩
  | dtorWait =>
    simp only [step, dtorWait]
    split <;> exact ⟨rfl, rfl⟩

theorem run_allTerminated (acts : List Action) : ∀ s : ThreadPool,
    (∀ e ∈ s.threads, e.2 = WorkerState.terminated) →
    (run s acts).1.threads = s.threads ∧ claimedTasks (run s acts).2 = [] := by
  induction acts with
  | nil => intro s _; exact ⟨rfl, rfl⟩
  | cons a rest ih =>
    intro s h
    obtain ⟨h1, h2⟩ := step_allTerminated s a h
    obtain ⟨h3, h4⟩ := ih (step s a).1 (by rw [h1]; exact h)
    simp only [run, claimedTasks_append]
    exact ⟨by rw [h3, h1], by rw [h2, h4]; rfl⟩

theorem mem_wakeAll_terminated (ws : List (Nat × WorkerState)) (e : Nat × WorkerState)
    (he : e ∈ wakeAll ws) (ht : e.2 = WorkerState.terminated) : e ∈ ws := by
  simp only [wakeAll, List.mem_map] at he
  obtain ⟨x, hx, rfl⟩ := he
  split at ht
  · simp at ht
  · rename_i hne
    simpa [hne] using hx

/-- A transition after which some worker has terminated either started
with a terminated worker, or is the exit of a worker, from a state where
`stop_` is set and the queue is empty. -/
theorem step_terminated (s : ThreadPool) (a : Action)
    (h : ∃ e ∈ (step s a).1.threads, e.2 = WorkerState.terminated) :
    (∃ e ∈ s.threads, e.2 = WorkerState.terminated) ∨ (s.stop_ = true ∧ s.taskQue_ = []) := by
  obtain ⟨e, he, ht⟩ := h
  have keep : e ∈ s.threads → (∃ e ∈ s.threads, e.2 = WorkerState.terminated) ∨
      (s.stop_ = true ∧ s.taskQue_ = []) := fun hm => Or.inl ⟨e, hm, ht⟩
  have viaSet : ∀ (w : Nat) (v : Nat × WorkerState), v.2 ≠ WorkerState.terminated →
      e ∈ s.threads.set w v → e ∈ s.threads := by
    intro w v hv hm
    rcases List.mem_or_eq_of_mem_set hm with h1 | h1
    · exact h1
    · exact absurd (h1 ▸ ht) hv
  revert he
  cases a with
  | workerStep w =>
    simp only [step, workerStep]
    split
    · rename_i tid heq
      split
      · exact fun hm => keep (viaSet w _ (by simp) hm)
      · split
        · rename_i hexit
          simp only [Bool.and_eq_true, List.isEmpty_iff] at hexit
          exact fun _ => Or.inr hexit
        · split
          · exact keep
          · rename_i t rest hq
            simp only
            split
            · exact fun hm => keep (viaSet w _ (by simp) (mem_wakeAll_terminated _ e hm ht))
            · exact fun hm => keep (viaSet w _ (by simp) hm)
    · exact keep
  | workerWake w =>
    simp only [step, workerWake]
    split
    · exact fun hm => keep (viaSet w _ (by simp) hm)
    · exact keep
  | workerFinish w =>
    simp only [step, workerFinish]
    split
    · exact fun hm => keep (viaSet w _ (by simp) hm)
    · exact keep
  | submitCall c t =>
    simp only [step, submitCall]
    split <;> exact keep
  | submitWake c =>
    simp only [step, submitWake, enqueue]
    repeat' split
    all_goals first | exact keep | exact fun hm => keep (mem_wakeAll_terminated _ e hm ht)
  | submitTimeout c =>
    simp only [step, submitTimeout, enqueue]
    repeat' split
    all_goals first | exact keep | exact fun hm => keep (mem_wakeAll_terminated _ e hm ht)
  | stop => exact keep
  | dtorStop =>
    simp only [step, dtorStop]
    split
    · exact fun hm => keep (mem_wakeAll_terminated _ e hm ht)
    · exact keep
  | dtorWait =>
    simp only [step, dtorWait]
    split <;> exact keep

/-- Drain: when a schedule run from `s` ends with a terminated worker and
`s` had none, every task queued in `s` was claimed during the schedule, in
queue order and before anything else. -/
theorem run_drains (acts : List Action) : ∀ s : ThreadPool,
    (∃ e ∈ (run s acts).1.threads, e.2 = WorkerState.terminated) →
    (∃ e ∈ s.threads, e.2 = WorkerState.terminated) ∨
      ∃ more, claimedTasks (run s acts).2 = s.taskQue_ ++ more := by
  induction acts with
  | nil => intro s h; exact Or.inl h
  | cons a rest ih =>
    intro s h
    simp only [run, claimedTasks_append] at h ⊢
    have hq := step_queue s a
    rcases ih (step s a).1 h with h1 | ⟨more, hmore⟩
    · rcases step_terminated s a h1 with h2 | ⟨_, h2⟩
      · exact Or.inl h2
      · exact Or.inr ⟨_, by rw [h2, List.nil_append]⟩
    · refine Or.inr ⟨acceptedTasks (step s a).2 ++ more, ?_⟩
      rw [hmore, ← List.append_assoc, ← hq, List.append_assoc]

/-- A terminated worker implies that `stop_` is set, along every schedule
from a state without terminated workers. -/
theorem run_terminated_stop (acts : List Action) : ∀ s : ThreadPool,
    (∃ e ∈ (run s acts).1.threads, e.2 = WorkerState.terminated) →
    (∃ e ∈ s.threads, e.2 = WorkerState.terminated) ∨ (run s acts).1.stop_ = true := by
  induction acts with
  | nil => intro s h; exact Or.inl h
  | cons a rest ih =>
    intro s h
    simp only [run] at h ⊢
    rcases ih (step s a).1 h with h1 | h1
    · rcases step_terminated s a h1 with h2 | ⟨h2, _⟩
      · exact Or.inl h2
      · exact Or.inr (run_stop rest _ (step_stop s a h2))
    · exact Or.inr h1

theorem run_append (xs ys : List Action) : ∀ s : ThreadPool,
    run s (xs ++ ys) = ((run (run s xs).1 ys).1, (run s xs).2 ++ (run (run s xs).1 ys).2) := by
  induction xs with
  | nil => intro s; simp [run]
  | cons a rest ih =>
    intro s
    have h := ih (step s a).1
    show run s (a :: (rest ++ ys)) = _
    simp only [run]
    rw [h, List.append_assoc]

theorem start_threads_running (order : MapOrder) (n C : Int) :
    ∀ e ∈ (start order ThreadPool.new n C).threads, e.2 = WorkerState.running := by
  intro e he
  simp only [start] at he
  rw [(launchThreads_threads _ _).1, (createThreads_fields _ _).2.2.2.2.1] at he
  simp only [configure, ThreadPool.new, List.nil_append, List.mem_map] at he
  obtain ⟨x, _, rfl⟩ := he
  rfl

/-- Drain safety for the tasks accepted before `stop()`.  On a started
pool, let `acts1` be a schedule after which `stop_` is still clear, and
`acts2` any continuation.  If the final state has a terminated worker (in
particular if all workers have terminated, on a pool with at least one
worker), then every task accepted during `acts1` has been claimed, in the
order of acceptance. -/
theorem drain_before_stop (order : MapOrder) (n C : Int) (acts1 acts2 : List Action)
    (hstop : (run (start order ThreadPool.new n C) acts1).1.stop_ = false)
    (hterm : ∃ e ∈ (run (start order ThreadPool.new n C) (acts1 ++ acts2)).1.threads,
      e.2 = WorkerState.terminated) :
    ∃ more, claimedTasks (run (start order ThreadPool.new n C) (acts1 ++ acts2)).2
      = acceptedTasks (run (start order ThreadPool.new n C) acts1).2 ++ more := by
  have hnone : ¬ ∃ e ∈ (run (start order ThreadPool.new n C) acts1).1.threads,
      e.2 = WorkerState.terminated := by
    intro h
    rcases run_terminated_stop acts1 _ h with ⟨e, he, ht⟩ | h1
    · have := start_threads_running order n C e he
      rw [this] at ht
      exact absurd ht (by simp)
    · rw [hstop] at h1
      exact absurd h1 (by simp)
  rw [run_append] at hterm ⊢
  rcases run_drains acts2 _ hterm with h | ⟨more, hmore⟩
  · exact absurd h hnone
  · have hq := run_queue acts1 (start order ThreadPool.new n C)
    rw [start_taskQue, show ThreadPool.new.taskQue_ = [] from rfl, List.nil_append] at hq
    exact ⟨more, by simp only [claimedTasks_append]; rw [hmore, hq, List.append_assoc]⟩

/-! ## The demo task -/

theorem sum_Icc_step (i b : Nat) (h : i ≤ b) :
    ∑ j ∈ Finset.Icc i b, j = i + ∑ j ∈ Finset.Icc (i + 1) b, j := by
  rw [← Nat.Ico_succ_right, ← Nat.Ico_succ_right,
    Finset.sum_eq_sum_Ico_succ_bot (Nat.lt_succ_of_le h)]

theorem sum_Icc_split (lo k m : Nat) (h1 : lo ≤ k) (h2 : k ≤ m) :
    ∑ j ∈ Finset.Icc (lo + 1) k, j + ∑ j ∈ Finset.Icc (k + 1) m, j
      = ∑ j ∈ Finset.Icc (lo + 1) m, j := by
  rw [← Nat.Ico_succ_right, ← Nat.Ico_succ_right, ← Nat.Ico_succ_right]
  exact Finset.sum_Ico_consecutive _ (by omega) (by omega)

theorem sum_Icc_one (N : Nat) : ∑ j ∈ Finset.Icc 1 N, j = N * (N + 1) / 2 := by
  have h : ∑ j ∈ Finset.Icc 1 N, j = ∑ j ∈ Finset.range (N + 1), j := by
    rw [Finset.range_eq_Ico, ← Nat.Ico_succ_right,
      Finset.sum_eq_sum_Ico_succ_bot (Nat.succ_pos N)]
    simp
  rw [h, Finset.sum_range_id]
  simp [Nat.mul_comm]

/-- The loop of `add` returns once it is given enough loop tests, and
the accumulator then holds the sum reduced modulo `2 ^ 64`. -/
theorem addLoop_spec (b : Nat) (hb : b + 1 < 2 ^ 64) : ∀ (fuel i sum : Nat), sum < 2 ^ 64 →
    1 ≤ fuel → b + 2 ≤ fuel + i →
    addLoop b fuel i sum = some ((sum + ∑ j ∈ Finset.Icc i b, j) % 2 ^ 64) := by
  intro fuel
  induction fuel with
  | zero => intro i sum _ h1 _; omega
  | succ fuel ih =>
    intro i sum hsum _ hfuel
    simp only [addLoop]
    split
    · rename_i hle
      have hi : (i + 1) % 2 ^ 64 = i + 1 := Nat.mod_eq_of_lt (by omega)
      rw [hi, ih (i + 1) ((sum + i) % 2 ^ 64) (Nat.mod_lt _ (by norm_num)) (by omega) (by omega),
        sum_Icc_step i b hle]
      congr 1
      rw [Nat.add_mod, Nat.mod_mod, ← Nat.add_mod, Nat.add_assoc]
    · rename_i hgt
      rw [Finset.Icc_eq_empty (by omega), Finset.sum_empty, Nat.add_zero,
        Nat.mod_eq_of_lt hsum]

/-- The function `add` returns the sum of the integers from `a` to `b`
reduced modulo `2 ^ 64`, provided `b` is not the largest `unsigned long
long`. -/
theorem add_spec (fuel a b : Nat) (hb : b + 1 < 2 ^ 64) (h1 : 1 ≤ fuel)
    (hfuel : b + 2 ≤ fuel + a) :
    add fuel a b = some ((∑ j ∈ Finset.Icc a b, j) % 2 ^ 64) := by
  unfold add
  rw [addLoop_spec b hb fuel a 0 (by norm_num) h1 hfuel, Nat.zero_add]

theorem lastCut_ge (ks : List Nat) : ∀ lo : Nat, cutsOk lo ks = true → lo ≤ lastCut lo ks := by
  induction ks with
  | nil => intro lo _; exact Nat.le_refl _
  | cons k ks ih =>
    intro lo h
    simp only [cutsOk, Bool.and_eq_true, decide_eq_true_eq] at h
    exact Nat.le_trans h.1 (ih k h.2)

/-- The results of `add` over consecutive ranges, added up in 64-bit
arithmetic, are the sum over the whole range reduced modulo `2 ^ 64`. -/
theorem addAll_ranges (fuel N : Nat) (hN : N + 1 < 2 ^ 64) (hfuel : N + 2 ≤ fuel)
    (ks : List Nat) : ∀ lo : Nat, cutsOk lo ks = true → lastCut lo ks ≤ N →
    ∃ rs, addAll fuel (ranges lo ks) = some rs ∧ rs.length = ks.length ∧
      sumResults rs = (∑ j ∈ Finset.Icc (lo + 1) (lastCut lo ks), j) % 2 ^ 64 := by
  induction ks with
  | nil =>
    intro lo _ _
    refine ⟨[], rfl, rfl, ?_⟩
    simp [sumResults, lastCut]
  | cons k ks ih =>
    intro lo hok hlast
    simp only [cutsOk, Bool.and_eq_true, decide_eq_true_eq] at hok
    simp only [lastCut] at hlast ⊢
    obtain ⟨rs, hrs, hlen, hsum⟩ := ih k hok.2 hlast
    have hk := lastCut_ge ks k hok.2
    have hadd := add_spec fuel (lo + 1) k (by omega) (by omega) (by omega)
    refine ⟨((∑ j ∈ Finset.Icc (lo + 1) k, j) % 2 ^ 64) :: rs, ?_, by simp [hlen], ?_⟩
    · simp only [addAll, ranges, hadd, hrs]
    simp only [sumResults, hsum]
    rw [← Nat.add_mod, sum_Icc_split lo k _ hok.1 hk]

/-- With `b` the largest `unsigned long long` the test `i <= b` never
fails: the loop of `add` is still running after any number of tests. -/
theorem addLoop_max_never_returns : ∀ (fuel i sum : Nat), i < 2 ^ 64 →
    addLoop (2 ^ 64 - 1) fuel i sum = none := by
  intro fuel
  induction fuel with
  | zero => intro i sum _; rfl
  | succ fuel ih =>
    intro i sum hi
    simp only [addLoop]
    split
    · exact ih _ _ (Nat.mod_lt _ (by norm_num))
    · omega

/-! ## The claims -/

/-- C1. Queue length invariant: on a pool started once with
`start(workerCount, C)`, `C ≥ 1` (for every `workerCount`, so also for
`workerCount ≥ 1`, and whatever the iteration order of `pool_`), every
state reached
by any schedule of the atomic sections of `submitTask` (accepted or
rejected), of the workers, of `stop()` and of the destructor has
`0 ≤ length ≤ C`; and a transition that accepts a task starts from a state
with `length < C` and lengthens the queue by exactly one. -/
theorem queue_length_invariant (order : MapOrder) (n C : Int) (hC : 1 ≤ C)
    (acts : List Action) :
    (0 : Int) ≤ (run (start order ThreadPool.new n C) acts).1.taskQue_.length ∧
    ((run (start order ThreadPool.new n C) acts).1.taskQue_.length : Int) ≤ C ∧
    ∀ (a : Action) (c : Nat) (t : Task),
      Event.accepted c t ∈ (step (run (start order ThreadPool.new n C) acts).1 a).2 →
        ((run (start order ThreadPool.new n C) acts).1.taskQue_.length : Int) < C ∧
        (step (run (start order ThreadPool.new n C) acts).1 a).1.taskQue_.length
          = (run (start order ThreadPool.new n C) acts).1.taskQue_.length + 1 := by
  have hcap := start_cap order ThreadPool.new n C
  have hq := start_taskQue order ThreadPool.new n C
  have hlen := run_length acts (start order ThreadPool.new n C) (by rw [hcap]; omega)
    (by rw [hq]; exact Nat.zero_le _)
  rw [hcap] at hlen
  refine ⟨by omega, by omega, ?_⟩
  intro a c t h
  have hacc := step_accepted _ a c t h
  have hrc := run_cap acts (start order ThreadPool.new n C)
  rw [hrc, hcap] at hacc
  have hs := sizeT_le_toNat C (by omega)
  refine ⟨by omega, ?_⟩
  rw [hacc.2]
  simp

/-- C1, at a concrete pool: two workers, capacity 1, a schedule with an
accepted and a rejected submission. -/
theorem queue_length_invariant_witness :
    ((run (start List.reverse ThreadPool.new 2 1)
        [Action.submitCall 0 7, Action.submitWake 0, Action.submitCall 1 8,
         Action.submitTimeout 1, Action.stop]).1.taskQue_.length : Int) ≤ 1 :=
  (queue_length_invariant List.reverse 2 1 (by decide)
    [Action.submitCall 0 7, Action.submitWake 0, Action.submitCall 1 8,
     Action.submitTimeout 1, Action.stop]).2.1

/-- C4. FIFO claiming.

* A call inside `submitTask` that evaluates the `wait_for` predicate, before
  or at the timeout, and finds it true is accepted and appends its task at
  the tail of the queue.
* A runnable worker that takes the lock on a non-empty queue claims the
  task at the head and leaves the rest of the queue.
* No other transition accepts or claims: a transition that reports an
  accepted task has appended it at the tail, one that reports a claimed task
  has removed it from the head.
* So along every schedule on a started pool (whatever the iteration order
  of `pool_`) the accepted tasks, in order, are the claimed tasks, in order,
  followed by the tasks still queued: the claimed sequence, taken over all
  workers together, is a prefix of the accepted one, and when the accepted
  tasks are pairwise distinct no task is claimed twice. -/
theorem fifo_claiming (order : MapOrder) (n C : Int) (acts : List Action) :
    (∀ (s : ThreadPool) (c : Nat) (t : Task) (a : Action),
      findCaller c s.callers = some t → notFullPred s = true →
      a = Action.submitWake c ∨ a = Action.submitTimeout c →
        (step s a).2 = [Event.accepted c t] ∧ (step s a).1.taskQue_ = s.taskQue_ ++ [t]) ∧
    (∀ (s : ThreadPool) (w tid : Nat) (t : Task) (rest : List Task),
      s.threads[w]? = some (tid, WorkerState.running) → s.taskQue_ = t :: rest →
        (step s (Action.workerStep w)).2 = [Event.claimed w t] ∧
        (step s (Action.workerStep w)).1.taskQue_ = rest) ∧
    (∀ (s : ThreadPool) (a : Action) (c : Nat) (t : Task),
      Event.accepted c t ∈ (step s a).2 → (step s a).1.taskQue_ = s.taskQue_ ++ [t]) ∧
    (∀ (s : ThreadPool) (a : Action) (w : Nat) (t : Task),
      Event.claimed w t ∈ (step s a).2 → s.taskQue_ = t :: (step s a).1.taskQue_) ∧
    acceptedTasks (run (start order ThreadPool.new n C) acts).2
      = claimedTasks (run (start order ThreadPool.new n C) acts).2
          ++ (run (start order ThreadPool.new n C) acts).1.taskQue_ ∧
    ((acceptedTasks (run (start order ThreadPool.new n C) acts).2).Nodup →
      (claimedTasks (run (start order ThreadPool.new n C) acts).2).Nodup) := by
  have hq := run_queue acts (start order ThreadPool.new n C)
  rw [start_taskQue, show ThreadPool.new.taskQue_ = [] from rfl, List.nil_append] at hq
  refine ⟨?_, workerStep_claims, fun s a c t h => (step_accepted s a c t h).2, step_claimed,
    hq, ?_⟩
  · intro s c t a hc hf ha
    have h := submit_notFull s c t hc hf
    rcases ha with rfl | rfl
    · rw [h.1]; exact ⟨rfl, rfl⟩
    · rw [h.2]; exact ⟨rfl, rfl⟩
  · intro hnd
    rw [hq] at hnd
    exact (List.nodup_append.1 hnd).1

/-- C4, at a concrete pool of two workers and capacity 3: the tasks 7, 8
and 9 are accepted in this order, the two workers claim 7 and then 8, each
once, and 9 is still queued. -/
theorem fifo_claiming_witness :
    acceptedTasks (run (start List.reverse ThreadPool.new 2 3)
      [Action.submitCall 0 7, Action.submitWake 0, Action.submitCall 0 8, Action.submitWake 0,
       Action.workerStep 1, Action.submitCall 1 9, Action.submitWake 1,
       Action.workerStep 0]).2 = [7, 8, 9] ∧
    claimedTasks (run (start List.reverse ThreadPool.new 2 3)
      [Action.submitCall 0 7, Action.submitWake 0, Action.submitCall 0 8, Action.submitWake 0,
       Action.workerStep 1, Action.submitCall 1 9, Action.submitWake 1,
       Action.workerStep 0]).2 = [7, 8] ∧
    (run (start List.reverse ThreadPool.new 2 3)
      [Action.submitCall 0 7, Action.submitWake 0, Action.submitCall 0 8, Action.submitWake 0,
       Action.workerStep 1, Action.submitCall 1 9, Action.submitWake 1,
       Action.workerStep 0]).1.taskQue_ = [9] ∧
    (claimedTasks (run (start List.reverse ThreadPool.new 2 3)
      [Action.submitCall 0 7, Action.submitWake 0, Action.submitCall 0 8, Action.submitWake 0,
       Action.workerStep 1, Action.submitCall 1 9, Action.submitWake 1,
       Action.workerStep 0]).2).Nodup :=
  ⟨by decide, by decide, by decide,
    (fifo_claiming List.reverse 2 3
      [Action.submitCall 0 7, Action.submitWake 0, Action.submitCall 0 8, Action.submitWake 0,
       Action.workerStep 1, Action.submitCall 1 9, Action.submitWake 1,
       Action.workerStep 0]).2.2.2.2.2 (by decide)⟩

/-- C2. In every state in which the stop flag is set (so in every state
after `stop()` was invoked, and in every state reached from there by any
schedule), a call of `submitTask` with any task throws "ThreadPool is
stopped.": it returns no handle and leaves the whole state, the queue
included, unchanged, whatever the length of the queue and the capacity. -/
theorem submit_after_stop (s : ThreadPool) (acts : List Action) (c : Nat) (t : Task)
    (hs : s.stop_ = true) :
    (∀ s0 : ThreadPool, (step s0 Action.stop).1.stop_ = true) ∧
    (run s acts).1.stop_ = true ∧
    step (run s acts).1 (Action.submitCall c t) = ((run s acts).1, [Event.poolStopped c]) ∧
    (step (run s acts).1 (Action.submitCall c t)).1.taskQue_ = (run s acts).1.taskQue_ := by
  have h := run_stop acts s hs
  refine ⟨fun _ => rfl, h, ?_, ?_⟩ <;> simp [step, submitCall, h]

/-- C2, at a concrete pool: started with one worker, `stop()` invoked, the
worker has seen the flag and exited. -/
theorem submit_after_stop_witness :
    step (run (stop (start List.reverse ThreadPool.new 1 2)) [Action.workerStep 0]).1 (Action.submitCall 3 9)
      = ((run (stop (start List.reverse ThreadPool.new 1 2)) [Action.workerStep 0]).1,
          [Event.poolStopped 3]) :=
  (submit_after_stop (stop (start List.reverse ThreadPool.new 1 2)) [Action.workerStep 0] 3 9
    (by decide)).2.2.1

/-- C3. Back-pressure.  On a pool `s` that is not stopped and whose
capacity is a non-negative `int`:

* the call passes the `stop_` check without touching the queue and is then
  inside `submitTask`;
* when the queue is at capacity and no other thread moves before the
  timeout, the whole call, with any number of evaluations of the predicate,
  throws "Task queue is full.", returns no handle and leaves the state as it
  was;
* under any interleaving, in whatever state `s1` the call evaluates the
  predicate: if the queue of `s1` is at capacity the call blocks again
  (state unchanged) or, at the timeout, throws "Task queue is full." with
  the queue unchanged; conversely if `length < capacity` in `s1` the task is
  accepted, a handle is returned, the task is appended at the tail and the
  length grows by exactly one. -/
theorem backpressure (s : ThreadPool) (c : Nat) (t : Task) (hrun : s.stop_ = false)
    (h0 : 0 ≤ s.maxTaskQueNum_) (h1 : s.maxTaskQueNum_ < 2 ^ 31) :
    step s (Action.submitCall c t) = (inCall s c t, []) ∧
    findCaller c (inCall s c t).callers = some t ∧
    ((s.taskQue_.length : Int) = s.maxTaskQueNum_ →
      ∀ k : Nat, run s (submitTaskAlone c t k) = (s, [Event.queueFull c])) ∧
    (∀ s1 : ThreadPool, findCaller c s1.callers = some t →
      s1.maxTaskQueNum_ = s.maxTaskQueNum_ →
      ((s1.taskQue_.length : Int) = s1.maxTaskQueNum_ →
        step s1 (Action.submitWake c) = (s1, []) ∧
        (step s1 (Action.submitTimeout c)).2 = [Event.queueFull c] ∧
        (step s1 (Action.submitTimeout c)).1.taskQue_ = s1.taskQue_) ∧
      ((s1.taskQue_.length : Int) < s1.maxTaskQueNum_ →
        ∀ a : Action, a = Action.submitWake c ∨ a = Action.submitTimeout c →
          (step s1 a).2 = [Event.accepted c t] ∧
          (step s1 a).1.taskQue_ = s1.taskQue_ ++ [t] ∧
          (step s1 a).1.taskQue_.length = s1.taskQue_.length + 1)) := by
  have hsz := sizeT_eq_toNat s.maxTaskQueNum_ h0 (by omega)
  refine ⟨by simp [step, submitCall, hrun, inCall], findCaller_inCall s c t, ?_, ?_⟩
  · intro hfull k
    have hf : notFullPred s = false := by
      simp only [notFullPred, decide_eq_false_iff_not]
      omega
    exact run_alone_full s c t k hrun hf
  · intro s1 hfc hcap
    rw [← hcap] at hsz
    constructor
    · intro hfull
      have hf : notFullPred s1 = false := by
        simp only [notFullPred, decide_eq_false_iff_not]
        omega
      rw [submitTimeout_full s1 c t hfc hf]
      exact ⟨submitWake_full s1 c t hfc hf, rfl, rfl⟩
    · intro hlt a ha
      have hf : notFullPred s1 = true := by
        simp only [notFullPred, decide_eq_true_eq]
        omega
      have h := submit_notFull s1 c t hfc hf
      rcases ha with rfl | rfl
      · rw [h.1]
        exact ⟨rfl, rfl, by simp [enqueue]⟩
      · rw [h.2]
        exact ⟨rfl, rfl, by simp [enqueue]⟩

/-- C3, at a concrete pool of capacity 1 holding one task: the next call
times out with "Task queue is full." and changes nothing. -/
theorem backpressure_witness :
    run (run (start List.reverse ThreadPool.new 1 1) (submitTaskAlone 0 7 0)).1 (submitTaskAlone 1 8 3)
      = ((run (start List.reverse ThreadPool.new 1 1) (submitTaskAlone 0 7 0)).1, [Event.queueFull 1]) :=
  ((backpressure (run (start List.reverse ThreadPool.new 1 1) (submitTaskAlone 0 7 0)).1 1 8
    (by decide) (by decide) (by decide)).2.2.1 (by decide)) 3

/-- C7, as the claim states it, fails: on a freshly constructed pool that
was never started nor stopped, `submitTask` throws "Task queue is full.",
not "ThreadPool is stopped.". -/
theorem unstarted_submit_is_queueFull :
    run ThreadPool.new (submitTaskAlone 0 7 0) = (ThreadPool.new, [Event.queueFull 0]) ∧
    Event.poolStopped 0 ∉ (run ThreadPool.new (submitTaskAlone 0 7 0)).2 := by
  decide

/-- C7, amended.  On a freshly constructed pool (`start()` not called,
`stop()` never invoked) the capacity is 0, so a call of `submitTask` with
any task passes the `stop_` check, waits for the back-pressure timeout and
throws "Task queue is full."; the task is never enqueued.  Under any
schedule without `start()` the queue of such a pool stays empty and no
submission is accepted. -/
theorem submit_before_start (c : Nat) (t : Task) (k : Nat) (acts : List Action) :
    run ThreadPool.new (submitTaskAlone c t k) = (ThreadPool.new, [Event.queueFull c]) ∧
    (run ThreadPool.new acts).1.taskQue_ = [] ∧
    acceptedTasks (run ThreadPool.new acts).2 = [] := by
  refine ⟨run_alone_full _ c t k rfl (by decide), ?_, run_no_accept acts _ (by decide)⟩
  have h := run_length acts ThreadPool.new (by decide) (by decide)
  have h2 : (run ThreadPool.new acts).1.taskQue_.length = 0 := by
    simpa [ThreadPool.new] using h
  exact List.length_eq_zero.1 h2

/-- C6. The first `start(workerCount, queueCapacity)` on a freshly
constructed pool, in a process where no `Thread` was constructed before,
with `workerCount` an `int` (below `2 ^ 31`; in particular for
`workerCount ≥ 1`), whatever order the loop of lines 159-163 visits the
entries of `pool_` in, as long as it visits each entry once:

* the `k`-th `Thread` constructed by the first loop (counting from 0) gets
  id `k`: the ids are assigned in increasing construction order from 0;
* the registry holds exactly `workerCount` workers: for every
  `i < workerCount` the key `i` maps to the worker whose id is `i`, and
  there is no other entry (the entries are, up to order, those of keys and
  ids `0, 1, ..., workerCount-1`, each once);
* each worker is launched exactly once: the launched threads are, up to
  order, one runnable thread per id `0, ..., workerCount-1`;
* the capacity is `queueCapacity`, the idle-worker count and
  `initThreadNum_` are `workerCount`, and the next id to hand out is
  `workerCount`. -/
theorem start_fresh (order : MapOrder) (n : Nat) (C : Int) (hn : n < 2 ^ 31)
    (hord : ∀ m : List (Nat × Thread), List.Perm (order m) m) :
    (∀ k : Nat, k < n →
      (Thread.create (createThreads k (configure ThreadPool.new n C))).1.id_ = k) ∧
    List.Perm (start order ThreadPool.new n C).pool_
      ((List.range n).map (fun i => (i, { id_ := i }))) ∧
    (start order ThreadPool.new n C).pool_.length = n ∧
    (∀ i : Nat, i < n →
      (i, ({ id_ := i } : Thread)) ∈ (start order ThreadPool.new n C).pool_) ∧
    (∀ e ∈ (start order ThreadPool.new n C).pool_, e.1 < n ∧ e.2.id_ = e.1) ∧
    List.Perm (start order ThreadPool.new n C).threads
      ((List.range n).map (fun i => (i, WorkerState.running))) ∧
    (start order ThreadPool.new n C).threads.length = n ∧
    (start order ThreadPool.new n C).maxTaskQueNum_ = C ∧
    (start order ThreadPool.new n C).idleThreadNum_ = n ∧
    (start order ThreadPool.new n C).initThreadNum_ = n ∧
    (start order ThreadPool.new n C).initId_ = n := by
  have hc := createThreads_pool n (configure ThreadPool.new n C) 0 rfl rfl
  have hf := createThreads_fields n (configure ThreadPool.new n C)
  simp only [Nat.zero_add] at hc
  have hstart : start order ThreadPool.new n C = launchThreads (order (registryUpTo n))
      (createThreads n (configure ThreadPool.new n C)) := by
    have h0 : (configure ThreadPool.new (n : Int) C).initThreadNum_.toNat = n := by
      simp [configure]
    simp only [start, h0, hc.1]
  have hids : ∀ k : Nat, k < n →
      (Thread.create (createThreads k (configure ThreadPool.new n C))).1.id_ = k := by
    intro k _
    have hk := createThreads_pool k (configure ThreadPool.new n C) 0 rfl rfl
    simp only [Nat.zero_add] at hk
    simp only [Thread.create, hk.2]
  rw [hstart]
  generalize createThreads n (configure ThreadPool.new n C) = s1 at hc hf
  obtain ⟨hl1, hl2, hl3⟩ := launchThreads_threads (order (registryUpTo n)) s1
  have hlf := launchThreads_fields (order (registryUpTo n)) s1
  generalize launchThreads (order (registryUpTo n)) s1 = s2 at hl1 hl2 hl3 hlf
  obtain ⟨_, hf2, _, hf4, hf5, _, _, hf8⟩ := hf
  obtain ⟨_, hlf2, _, hlf4, hlf5, _, _, hlf8⟩ := hlf
  have hperm := hord (registryUpTo n)
  have hidle0 : s1.idleThreadNum_ = 0 := by rw [hf4]; rfl
  have hlen : (registryUpTo n).length = n := by simp [registryUpTo]
  have hlen2 : (order (registryUpTo n)).length = n := by rw [hperm.length_eq, hlen]
  rw [hidle0, hlen2] at hl2
  rw [hidle0] at hl3
  have hlt := hl3 (by norm_num)
  have hthreads : s2.threads
      = (order (registryUpTo n)).map (fun e => (e.2.id_, WorkerState.running)) := by
    rw [hl1, hf5]; simp [ThreadPool.new, configure]
  have hmap : (registryUpTo n).map (fun e => (e.2.id_, WorkerState.running))
      = (List.range n).map (fun i => (i, WorkerState.running)) := by
    simp only [registryUpTo, List.map_map]
    rfl
  refine ⟨hids, ?_, ?_, ?_, ?_, ?_, ?_, ?_, ?_, ?_, ?_⟩
  · rw [hlf4, hc.1]; exact List.Perm.refl _
  · rw [hlf4, hc.1]; exact hlen
  · intro i hi
    rw [hlf4, hc.1]
    simp only [registryUpTo, List.mem_map, List.mem_range]
    exact ⟨i, hi, rfl⟩
  · intro e he
    rw [hlf4, hc.1] at he
    simp only [registryUpTo, List.mem_map, List.mem_range] at he
    obtain ⟨i, hi, rfl⟩ := he
    exact ⟨hi, rfl⟩
  · rw [hthreads, ← hmap]
    exact hperm.map _
  · rw [hthreads, List.length_map, hlen2]
  · rw [hlf2, hf2]; rfl
  · omega
  · rw [hlf8, hf8]; rfl
  · rw [hlf5, hc.2]

/-- C6, at `start(3, 10)` with the map visited newest entry first: the
threads are launched for the ids 2, 1, 0 in this order, which is one thread
per id 0, 1, 2; the registry maps each key to the worker of that id; the
idle count is 3. -/
theorem start_fresh_witness :
    (start List.reverse ThreadPool.new 3 10).threads
      = [(2, WorkerState.running), (1, WorkerState.running), (0, WorkerState.running)] ∧
    List.Perm (start List.reverse ThreadPool.new 3 10).threads
      ((List.range 3).map (fun i => (i, WorkerState.running))) ∧
    (∀ i : Nat, i < 3 →
      (i, ({ id_ := i } : Thread)) ∈ (start List.reverse ThreadPool.new 3 10).pool_) ∧
    (start List.reverse ThreadPool.new 3 10).pool_.length = 3 ∧
    (start List.reverse ThreadPool.new 3 10).idleThreadNum_ = 3 :=
  ⟨by decide,
    (start_fresh List.reverse 3 10 (by decide) List.reverse_perm).2.2.2.2.2.1,
    (start_fresh List.reverse 3 10 (by decide) List.reverse_perm).2.2.2.1,
    (start_fresh List.reverse 3 10 (by decide) List.reverse_perm).2.2.1,
    (start_fresh List.reverse 3 10 (by decide) List.reverse_perm).2.2.2.2.2.2.2.2.1⟩

/-- C9, as the claim states it, fails.  `add(2^63, 2^63 + 1)` runs two
iterations and returns 1, while the sum of the integers in the range is
`2^64 + 1`.  On the five ranges of `main`, which split `[1, 50000000000]`,
the five results added up give `14068147086460041728`, not the closed form
`50000000000 * 50000000001 / 2 = 1250000000025000000000`. -/
theorem add_not_exact_sum :
    add 3 (2 ^ 63) (2 ^ 63 + 1) = some 1 ∧
    ∑ j ∈ Finset.Icc (2 ^ 63) (2 ^ 63 + 1), j = 2 ^ 64 + 1 ∧
    mainRanges
      = ranges 0 [10000000000, 20000000000, 30000000000, 40000000000, 50000000000] ∧
    ∃ rs, addAll 50000000002 mainRanges = some rs ∧
      sumResults rs = 14068147086460041728 ∧
      sumResults rs ≠ 50000000000 * 50000000001 / 2 := by
  refine ⟨by rfl, ?_, by rfl, ?_⟩
  · rw [sum_Icc_step _ _ (by norm_num), sum_Icc_step _ _ (by norm_num),
      Finset.Icc_eq_empty (by norm_num)]
    norm_num
  · have hr : mainRanges
        = ranges 0 [10000000000, 20000000000, 30000000000, 40000000000, 50000000000] := by
      rfl
    obtain ⟨rs, h1, _, h3⟩ := addAll_ranges 50000000002 50000000000 (by norm_num) (by norm_num)
      [10000000000, 20000000000, 30000000000, 40000000000, 50000000000] 0 (by decide)
      (by decide)
    have hl : lastCut 0 [10000000000, 20000000000, 30000000000, 40000000000, 50000000000]
        = 50000000000 := by decide
    simp only [hl, Nat.zero_add] at h3
    rw [sum_Icc_one 50000000000] at h3
    refine ⟨rs, by rw [hr]; exact h1, ?_, ?_⟩
    · rw [h3]
      norm_num
    · rw [h3]
      norm_num

/-- C9, amended.  The unsigned 64-bit arithmetic of `add` wraps around:
for every `b` below the largest `unsigned long long` and every `a`, `add(a,
b)` returns the sum of the integers `i` with `a ≤ i ≤ b` reduced modulo
`2 ^ 64`.  For every `N ≥ 1` below the largest `unsigned long long` and
every split of `[1, N]` into consecutive ranges `[1, k1], [k1+1, k2], ...,
[km+1, N]`, every call returns, and the results added up in 64-bit
arithmetic are `N * (N + 1) / 2` reduced modulo `2 ^ 64`; they equal the
closed form itself whenever it is below `2 ^ 64`. -/
theorem add_sum_mod (fuel N : Nat) (ks : List Nat) (hN1 : 1 ≤ N) (hN : N + 1 < 2 ^ 64)
    (hfuel : N + 2 ≤ fuel) (hcuts : cutsOk 0 ks = true) (hlast : lastCut 0 ks = N) :
    (∀ a b : Nat, b ≤ N →
      add fuel a b = some ((∑ i ∈ Finset.Icc a b, i) % 2 ^ 64)) ∧
    ∃ rs, addAll fuel (ranges 0 ks) = some rs ∧ rs.length = ks.length ∧
      sumResults rs = (N * (N + 1) / 2) % 2 ^ 64 ∧
      (N * (N + 1) / 2 < 2 ^ 64 → sumResults rs = N * (N + 1) / 2) := by
  refine ⟨fun a b hb => add_spec fuel a b (by omega) (by omega) (by omega), ?_⟩
  obtain ⟨rs, h1, h2, h3⟩ := addAll_ranges fuel N hN hfuel ks 0 hcuts (by omega)
  rw [hlast, sum_Icc_one] at h3
  exact ⟨rs, h1, h2, h3, fun hlt => by rw [h3, Nat.mod_eq_of_lt hlt]⟩

/-- C9 amended, at `N = 10` split into `[1, 3], [4, 7], [8, 10]`: the
results are 6, 22 and 27, and `6 + 22 + 27 = 55 = 10 * 11 / 2`. -/
theorem add_sum_mod_witness :
    ∃ rs, addAll 12 (ranges 0 [3, 7, 10]) = some rs ∧ rs.length = 3 ∧
      sumResults rs = (10 * (10 + 1) / 2) % 2 ^ 64 ∧
      (10 * (10 + 1) / 2 < 2 ^ 64 → sumResults rs = 10 * (10 + 1) / 2) :=
  (add_sum_mod 12 10 [3, 7, 10] (by decide) (by norm_num) (by decide) (by decide)
    (by decide)).2

/-- C5 at its failing schedule.  Pool started with one worker, capacity 1.
A caller enters `submitTask` and passes the `stop_` check of line 75;
`stop()` is called; the worker takes the lock, finds `stop_` set and the
queue empty, and returns (line 129); the caller then takes the lock, finds
the queue below capacity and enqueues its task (line 105).  The only worker
has terminated and the queue holds the accepted task; whatever happens
next, no worker claims it. -/
theorem accepted_after_last_worker_exit :
    run (start List.reverse ThreadPool.new 1 1)
        [Action.submitCall 0 7, Action.stop, Action.workerStep 0, Action.submitWake 0]
      = ({ start List.reverse ThreadPool.new 1 1 with
           taskQue_ := [7]
           stop_ := true
           threads := [(0, WorkerState.terminated)] },
         [Event.exited 0, Event.accepted 0 7]) ∧
    ∀ acts : List Action,
      claimedTasks (run (run (start List.reverse ThreadPool.new 1 1)
        [Action.submitCall 0 7, Action.stop, Action.workerStep 0, Action.submitWake 0]).1
        acts).2 = [] := by
  refine ⟨by decide, fun acts => (run_allTerminated acts _ ?_).2⟩
  decide

/-- C8 at its failing schedules.  Pool started with one worker, capacity 1.
First schedule: a task is accepted and claimed, and while the worker is
executing it the destructor runs: `exit_.wait` finds the queue empty and
returns at once, so the destructor completes with the worker still
executing.  Second schedule: the worker is idle-waiting when the destructor
runs; the destructor completes before the worker has re-checked the exit
condition. -/
theorem dtor_completes_before_workers_exit :
    run (start List.reverse ThreadPool.new 1 1)
        [Action.submitCall 0 7, Action.submitWake 0, Action.workerStep 0, Action.dtorStop,
         Action.dtorWait]
      = ({ start List.reverse ThreadPool.new 1 1 with
           idleThreadNum_ := 0
           stop_ := true
           threads := [(0, WorkerState.executing 7)]
           dtor := DtorState.destroyed },
         [Event.accepted 0 7, Event.claimed 0 7, Event.dtorDone]) ∧
    run (start List.reverse ThreadPool.new 1 1) [Action.workerStep 0, Action.dtorStop, Action.dtorWait]
      = ({ start List.reverse ThreadPool.new 1 1 with
           stop_ := true
           threads := [(0, WorkerState.running)]
           dtor := DtorState.destroyed },
         [Event.dtorDone]) := by
  decide

/-- C10 at its failing input.  `stop()` sets `stop_` and does nothing else:
it issues no `notEmpty_.notify_all()`.  On a pool started with one worker
that is blocked in `notEmpty_.wait`, the worker is still blocked after
`stop()` and does not re-check the exit condition, while after lines 58-59
of the destructor it is runnable and exits at its next step. -/
theorem stop_does_not_wake :
    (∀ s : ThreadPool, step s Action.stop = ({ s with stop_ := true }, [])) ∧
    (run (start List.reverse ThreadPool.new 1 1) [Action.workerStep 0]).1.threads
      = [(0, WorkerState.waiting)] ∧
    (run (start List.reverse ThreadPool.new 1 1) [Action.workerStep 0, Action.stop]).1.threads
      = [(0, WorkerState.waiting)] ∧
    (run (start List.reverse ThreadPool.new 1 1) [Action.workerStep 0, Action.dtorStop]).1.threads
      = [(0, WorkerState.running)] ∧
    (run (start List.reverse ThreadPool.new 1 1)
      [Action.workerStep 0, Action.stop, Action.workerStep 0]).2 = [] ∧
    (run (start List.reverse ThreadPool.new 1 1)
      [Action.workerStep 0, Action.dtorStop, Action.workerStep 0]).2 = [Event.exited 0] := by
  refine ⟨fun s => rfl, ?_, ?_, ?_, ?_, ?_⟩ <;> decide

end ThreadPoolSpec
